import Mathlib

/-!
Verification of the WordPiece trainer and tokenizer (src/WordPiece.py).
Python strings are modelled as `List Char`; a token is a string. Every
Python loop that is not structurally recursive is modelled by structural
recursion on an explicit fuel argument; each fuel used is either proved
sufficient or the statement quantifies over all fuels, and fuel exhaustion
models non-termination (the training loop has no stall guard in the source).
-/

namespace WordPiece

/-- A token: any string in the vocabulary. -/
abbrev Token := List Char

def unkTok : Token := ['<', 'u', 'n', 'k', '>']

def maskTok : Token := ['<', 'm', 'a', 's', 'k', '>']

def sepTok : Token := ['<', 's', 'e', 'p', '>']

def clsTok : Token := ['<', 'c', 'l', 's', '>']

def padTok : Token := ['<', 'p', 'a', 'd', '>']

/-- The whitespace characters Python `str.split()` splits on. -/
def isWS (c : Char) : Bool :=
  c == ' ' || c == '\t' || c == '\n' || c == '\r' || c == '\x0b' || c == '\x0c'

/-- Python `str.split()`: fuel-indexed structural recursion; every step
consumes at least one character, so fuel `length + 1` is sufficient. -/
def pySplitF : Nat → List Char → List (List Char)
  | 0, _ => []
  | fuel + 1, s =>
    match s with
    | [] => []
    | c :: cs =>
      if isWS c then pySplitF fuel cs
      else (c :: cs).takeWhile (fun d => !isWS d) ::
        pySplitF fuel ((c :: cs).dropWhile (fun d => !isWS d))

/-- Python `str.split()`: the maximal runs of non-whitespace characters. -/
def pySplit (s : List Char) : List (List Char) := pySplitF (s.length + 1) s

/-- Python `str.replace(pat, rep)`: all occurrences, left to right,
non-overlapping. Fueled: when the pattern is nonempty (the source never
passes an empty one) each step consumes at least one character, so fuel
`length` is sufficient and the fuel-0 fallback is never reached with a
nonempty string. -/
def strReplaceF (pat rep : List Char) : Nat → List Char → List Char
  | 0, s => s
  | fuel + 1, s =>
    match s with
    | [] => []
    | c :: cs =>
      if pat ≠ [] ∧ pat.isPrefixOf (c :: cs) then
        rep ++ strReplaceF pat rep fuel ((c :: cs).drop pat.length)
      else c :: strReplaceF pat rep fuel cs

def strReplace (pat rep s : List Char) : List Char := strReplaceF pat rep s.length s

/-- `l[i]` for a non-negative Python index; `none` is IndexError. -/
def listGet? {α : Type} : List α → Nat → Option α
  | [], _ => none
  | x :: _, 0 => some x
  | _ :: xs, n + 1 => listGet? xs n

/-- Python list indexing: a negative index counts from the end; an index
below `-len` or at/above `len` raises IndexError (`none`). -/
def pyListGet {α : Type} (l : List α) (i : Int) : Option α :=
  if 0 ≤ i then listGet? l i.toNat
  else if 0 ≤ i + l.length then listGet? l (i + l.length).toNat
  else none

/-- The two exceptions the trainer can actually raise. -/
inductive PyErr where
  | nameError : PyErr
  | attributeError : PyErr
  deriving DecidableEq, Repr

instance {ε α : Type} [DecidableEq ε] [DecidableEq α] : DecidableEq (Except ε α) :=
  fun x y =>
    match x, y with
    | .error a, .error b =>
      if h : a = b then isTrue (by rw [h]) else isFalse (fun he => by cases he; exact h rfl)
    | .ok a, .ok b =>
      if h : a = b then isTrue (by rw [h]) else isFalse (fun he => by cases he; exact h rfl)
    | .error _, .ok _ => isFalse (fun he => by cases he)
    | .ok _, .error _ => isFalse (fun he => by cases he)

/-- `list(set(text))`: Python set iteration order depends on string hashing
and is not fixed across runs; it is modelled as first-occurrence order.
Nothing proved below depends on the order of this list, only on its
membership and length, which every iteration order shares. -/
def dedupFirst (l : List Char) : List Char :=
  l.foldl (fun acc c => if c ∈ acc then acc else acc ++ [c]) []

/-- `WordPieceTrainer._get_symbols` (src/WordPiece.py lines 88-105). With
`max_symbols = None`, the valid symbols are the distinct characters of the
text and there are no invalid ones. With a number, line 94 evaluates
`nltk.FreqDist.most_common(max_symbols)`: `most_common` is taken from the
class and the integer becomes its receiver, so it evaluates
`max_symbols.items()` and raises AttributeError; the text is never
consulted. The word marker is appended when absent (reachable only in the
`None` branch). The file write is out of scope. -/
def getSymbols (text : List Char) (maxSymbols : Option Nat) :
    Except PyErr (List Token × List Token) :=
  match maxSymbols with
  | none =>
    let valid := (dedupFirst text).map (fun c => [c])
    let valid := if ['_'] ∈ valid then valid else valid ++ [['_']]
    Except.ok (valid, [])
  | some _ => Except.error PyErr.attributeError

/-- `WordPieceTrainer._split_word` (lines 107-112): join the characters with
blanks, collapse any literal `< u n k >` back into the atomic `<unk>`,
split on whitespace, and put the word marker in front as its own element. -/
def splitWord (w : List Char) : List Token :=
  ['_'] :: pySplit (strReplace
    ['<', ' ', 'u', ' ', 'n', ' ', 'k', ' ', '>'] unkTok (List.intersperse ' ' w))

/-- Add `n` to `key` in an insertion-ordered counter (`collections.Counter`:
existing keys keep their position, a new key is appended). -/
def counterBump {α : Type} [DecidableEq α] :
    List (α × Nat) → α → Nat → List (α × Nat)
  | [], key, n => [(key, n)]
  | (k, v) :: rest, key, n =>
    if k = key then (k, v + n) :: rest else (k, v) :: counterBump rest key n

/-- `_count_multiply` (lines 114-117): `Counter(seq)` in first-occurrence
order with every count multiplied by the word's corpus count. -/
def countMultiply {α : Type} [DecidableEq α] (seq : List α) (count : Nat) :
    List (α × Nat) :=
  seq.foldl (fun acc x => counterBump acc x count) []

/-- `Counter.update` with another counter: merge counts, new keys appended. -/
def counterMerge {α : Type} [DecidableEq α] (c d : List (α × Nat)) :
    List (α × Nat) :=
  d.foldl (fun acc kv => counterBump acc kv.1 kv.2) c

/-- `Counter[key]`: 0 for a missing key. -/
def counterGet {α : Type} [DecidableEq α] (c : List (α × Nat)) (key : α) : Nat :=
  match c.find? (fun kv => kv.1 == key) with
  | some kv => kv.2
  | none => 0

/-- A unique corpus word as the trainer keeps it: its current token sequence
and its occurrence count. -/
structure WordCount where
  word : List Token
  count : Nat
  deriving DecidableEq, Repr

/-- One entry of the ranked bigram list of lines 48-56. The score `mi` is the
exact value `count / (unigram[left] * unigram[right])` kept as the pair
(numerator, denominator). -/
structure BigramMI where
  bigram : Token × Token
  mi : Nat × Nat
  deriving DecidableEq, Repr

/-- The ordering of the scores: `x ≤ y` by cross-multiplication. The source
compares the scores as Python floats; a float score is the correctly rounded
value of the exact fraction and rounding is monotone, so the float ordering
is the fraction ordering except that distinct fractions lying extremely
close together can collapse into a float tie. On every concrete corpus
evaluated below the distinct scores are 1 and 1/5, where no collapse is
possible, so this exact comparison reproduces the float comparison. The
denominators are positive whenever the counters come from `_count_ngrams`
(both tokens of a counted bigram are unigrams of the same word), which is
the only way the source builds them. -/
def miLe (x y : Nat × Nat) : Prop := x.1 * y.2 ≤ y.1 * x.2

instance (x y : Nat × Nat) : Decidable (miLe x y) := by
  unfold miLe
  infer_instance

/-- The trainer's mutable state across rounds. -/
structure TrainState where
  tokens : List Token
  wordCounts : List WordCount
  history : List (Token × Token)
  deriving DecidableEq, Repr

/-- `WordPieceTrainer._count_ngrams` (lines 119-132); `nltk.bigrams` of a
word is `word.zip word.tail`. -/
def countNgrams (wordCounts : List WordCount) :
    List (Token × Nat) × List ((Token × Token) × Nat) :=
  wordCounts.foldl
    (fun acc wc =>
      (counterMerge acc.1 (countMultiply wc.word wc.count),
       counterMerge acc.2 (countMultiply (wc.word.zip wc.word.tail) wc.count)))
    ([], [])

/-- The score of lines 49-55: `count / (unigram[left] * unigram[right])`,
kept as the exact fraction (see `miLe` for its relation to the float the
source computes). -/
def scoreBigrams (uni : List (Token × Nat)) (bi : List ((Token × Token) × Nat)) :
    List BigramMI :=
  bi.map (fun p =>
    { bigram := p.1,
      mi := (p.2, counterGet uni p.1.1 * counterGet uni p.1.2) })

/-- Stable insertion for a descending sort: `x` goes in front of the first
element whose score does not exceed `x`'s. -/
def insertDesc (x : BigramMI) : List BigramMI → List BigramMI
  | [] => [x]
  | y :: ys => if miLe y.mi x.mi then x :: y :: ys else y :: insertDesc x ys

/-- `bigram_mi.sort(key=lambda x: x['mi'], reverse=True)` (line 56): Python's
sort is stable, so ties keep their original order. -/
def sortDesc (l : List BigramMI) : List BigramMI := l.foldr insertDesc []

/-- `WordPieceTrainer._get_independed_bigrams` (lines 134-150): scan the
ranked list, accept a bigram when neither of its tokens was seen in an
already accepted bigram, and stop the whole scan at the first conflicting
one. Returns the accepted bigrams and their concatenations. -/
def getIndependedAux :
    List Token → List BigramMI → List (Token × Token) × List Token
  | _, [] => ([], [])
  | seen, e :: rest =>
    if e.bigram.1 ∉ seen ∧ e.bigram.2 ∉ seen then
      let r := getIndependedAux (seen ++ [e.bigram.1, e.bigram.2]) rest
      (e.bigram :: r.1, (e.bigram.1 ++ e.bigram.2) :: r.2)
    else ([], [])

def getIndependedBigrams (l : List BigramMI) :
    List (Token × Token) × List Token :=
  getIndependedAux [] l

/-- `WordPieceTrainer._merge_bigrams_in_word` (lines 152-159): join the
word's tokens with blanks, textually replace every `left right` occurrence
by `leftright` for each accepted bigram in turn, and split on whitespace. -/
def mergeBigramsInWord (word : List Token)
    (bigramsToMerge : List (Token × Token)) : List Token :=
  pySplit (bigramsToMerge.foldl
    (fun s bg => strReplace (bg.1 ++ ' ' :: bg.2) (bg.1 ++ bg.2) s)
    (List.intercalate [' '] word))

/-- One round of the training loop of `WordPieceTrainer.fit` (lines 41-66). -/
def fitRound (s : TrainState) : TrainState :=
  let counts := countNgrams s.wordCounts
  let sel := getIndependedBigrams (sortDesc (scoreBigrams counts.1 counts.2))
  { tokens := s.tokens ++ sel.2,
    wordCounts := s.wordCounts.map
      (fun wc => { wc with word := mergeBigramsInWord wc.word sel.1 }),
    history := s.history ++ sel.1 }

/-- The `while num_tokens < vocab_size` loop, indexed by how many rounds are
still allowed; `none` means the loop is still running after that many rounds
(the source has no guard that stops a stalled loop). -/
def fitLoop (vocabSize : Nat) : Nat → TrainState → Option TrainState
  | 0, s => if s.tokens.length < vocabSize then none else some s
  | fuel + 1, s =>
    if s.tokens.length < vocabSize then fitLoop vocabSize fuel (fitRound s)
    else some s

/-- `nltk.FreqDist(text.split())`: word counts in first-occurrence order. -/
def freqDist (words : List (List Char)) : List (List Char × Nat) :=
  words.foldl (fun acc w => counterBump acc w 1) []

/-- The state entering the training loop: line 30 and line 38 of `fit`. -/
def initState (valid : List Token) (text : List Char) : TrainState :=
  { tokens := valid,
    wordCounts := (freqDist (pySplit text)).map
      (fun p => { word := splitWord p.1, count := p.2 }),
    history := [] }

/-- Lines 68-77 of `fit`: prepend each reserved token when absent, in the
insertion order `<unk>`, `<mask>`, `<sep>`, `<cls>`, `<pad>`. -/
def finalizeTokens (tokens : List Token) : List Token :=
  let t1 := if unkTok ∈ tokens then tokens else unkTok :: tokens
  let t2 := if maskTok ∈ t1 then t1 else maskTok :: t1
  let t3 := if sepTok ∈ t2 then t2 else sepTok :: t2
  let t4 := if clsTok ∈ t3 then t3 else clsTok :: t3
  if padTok ∈ t4 then t4 else padTok :: t4

/-- `WordPieceTrainer.fit` (lines 23-84), without the file writes. When the
constructor received a `valid_symbols` list, line 33 reads the local name
`invalid_symbols`, assigned only in the `None` branch of lines 27-28, and
raises NameError before any training work. In the `None` branch, the block
of lines 33-35 runs its loop only when `invalid_symbols` is empty (zero
iterations either way) and discards the result of `str.replace`; it never
changes `text` and is omitted. -/
def fit (vocabSize fuel : Nat) (validSymbolsArg : Option (List Token))
    (maxSymbols : Option Nat) (text : List Char) :
    Except PyErr (Option (List Token)) :=
  match validSymbolsArg with
  | some _ => Except.error PyErr.nameError
  | none =>
    match getSymbols text maxSymbols with
    | Except.error e => Except.error e
    | Except.ok valid =>
      match fitLoop vocabSize fuel (initState valid.1 text) with
      | none => Except.ok none
      | some s => Except.ok (some (finalizeTokens s.tokens))

/-- The scanning loop of `WordPieceTokenizer._tokenize_word` (lines 205-218):
state `(start, end)`; on a vocabulary hit emit the slice `word[start:end]`
and restart the window behind it, otherwise shrink the window from the
right. Returns the emitted tokens and the final `start`. Fueled structural
recursion; the measure `(length - start) * (length + 1) + end` decreases
every step, so fuel `(length + 1)^2` is sufficient (proved below). -/
def tokenizeAuxF (vocab : List Token) (word : List Char) :
    Nat → Nat → Nat → List Token × Nat
  | 0, start, _ => ([], start)
  | fuel + 1, start, e =>
    if start < word.length ∧ start < e then
      if (word.drop start).take (e - start) ∈ vocab then
        ((word.drop start).take (e - start) ::
            (tokenizeAuxF vocab word fuel e word.length).1,
          (tokenizeAuxF vocab word fuel e word.length).2)
      else tokenizeAuxF vocab word fuel start (e - 1)
    else ([], start)

def tokenizeCore (vocab : List Token) (word : List Char) : List Token × Nat :=
  tokenizeAuxF vocab word ((word.length + 1) * (word.length + 1)) 0 word.length

/-- `WordPieceTokenizer._tokenize_word`: when the loop exits with `start`
short of the word's end, a single `<unk>` is appended (lines 216-217). -/
def tokenizeWord (vocab : List Token) (word : List Char) : List Token :=
  if (tokenizeCore vocab word).2 < word.length then
    (tokenizeCore vocab word).1 ++ [unkTok]
  else (tokenizeCore vocab word).1

/-- The word segments without the `<unk>` fallback: the scan consumed it. -/
def segmentsFully (vocab : List Token) (word : List Char) : Prop :=
  (tokenizeCore vocab word).2 = word.length

instance (vocab : List Token) (word : List Char) :
    Decidable (segmentsFully vocab word) := by
  unfold segmentsFully
  infer_instance

/-- A text whose words are separated by single blanks. -/
def joinWords : List (List Char) → List Char
  | [] => []
  | [w] => w
  | w :: ws => w ++ ' ' :: joinWords ws

/-- `{token: number for number, token in enumerate(tokens)}` (line 81): a
duplicated token keeps its last index. -/
def token2ixAux (t : Token) : Nat → List Token → Option Nat
  | _, [] => none
  | i, x :: xs =>
    match token2ixAux t (i + 1) xs with
    | some j => some j
    | none => if x = t then some i else none

def token2ixFun (tokens : List Token) (t : Token) : Option Nat :=
  token2ixAux t 0 tokens

/-- `[token2idx[token] for token in output]` (line 193): a missing token
raises KeyError (`none`). -/
def lookupAll (token2idx : Token → Option Nat) : List Token → Option (List Nat)
  | [] => some []
  | t :: ts =>
    match token2idx t with
    | none => none
    | some i =>
      match lookupAll token2idx ts with
      | none => none
      | some is => some (i :: is)

/-- `WordPieceTokenizer.encode` (lines 173-193). The replacement block of
lines 176-180 runs its loop only when `invalid_symbols` is empty (zero
iterations either way) and discards the result of `str.replace`, so it
never changes the text and is omitted, and `valid_symbols` is then unused.
The progress-bar branch does not affect the output. `token2idx` is the
loaded dictionary, modelled as a lookup function. -/
def encode (idx2token : List Token) (token2idx : Token → Option Nat)
    (text : List Char) : Option (List Nat) :=
  lookupAll token2idx
    ((((pySplit text).map (fun w => '_' :: w)).map (tokenizeWord idx2token)).flatten)

/-- `[self.idx2token[idx] for idx in sequence]` (line 199): the first
out-of-range index raises IndexError (`none`). -/
def fetchAll (idx2token : List Token) : List Int → Option (List Token)
  | [] => some []
  | i :: is =>
    match pyListGet idx2token i with
    | none => none
    | some t =>
      match fetchAll idx2token is with
      | none => none
      | some ts => some (t :: ts)

/-- `WordPieceTokenizer.decode` (lines 196-201): look every index up,
concatenate with no separator, replace every `_` by a blank. -/
def decode (idx2token : List Token) (sequence : List Int) : Option (List Char) :=
  (fetchAll idx2token sequence).map (fun toks => strReplace ['_'] [' '] toks.flatten)

/-- The acceptance condition of the merge scan: one of the bigram's two
tokens already occurs in the accumulated token list. -/
def conflicts (bg : Token × Token) (seen : List Token) : Prop :=
  bg.1 ∈ seen ∨ bg.2 ∈ seen

/-- The token accumulator after accepting a list of bigrams
(`unique_unigrams.extend(bigram)` of line 147). -/
def seenAfter (seen : List Token) (bgs : List (Token × Token)) : List Token :=
  bgs.foldl (fun s b => s ++ [b.1, b.2]) seen

/-- The scan accepts these bigrams in order: each is conflict-free against
the tokens of those before it (plus the starting accumulator). -/
def scanOK : List Token → List (Token × Token) → Prop
  | _, [] => True
  | seen, b :: bs => ¬conflicts b seen ∧ scanOK (seen ++ [b.1, b.2]) bs

/-- Two merge rules share no token. -/
def disjointBigrams (a b : Token × Token) : Prop :=
  a.1 ≠ b.1 ∧ a.1 ≠ b.2 ∧ a.2 ≠ b.1 ∧ a.2 ≠ b.2

/-- The corpus of the C1 counterexample. -/
def cexText : List Char :=
  ['<', 'p', 'a', 'd', '>', ' ', 'z', ' ', 'z', ' ', 'z', ' ', 'z']

/-- The token list `fit` returns on `cexText` with `vocab_size = 12`: four
rounds merge `<`+`p`, `<p`+`a`, `<pa`+`d`, `<pad`+`>`, so the learned
vocabulary already contains the literal token `<pad>` and finalization skips
prepending it. -/
def cexResult : List Token :=
  [clsTok, sepTok, maskTok, unkTok,
   ['<'], ['p'], ['a'], ['d'], ['>'], [' '], ['z'], ['_'],
   ['<', 'p'], ['<', 'p', 'a'], ['<', 'p', 'a', 'd'], ['<', 'p', 'a', 'd', '>']]

/-- A small trained vocabulary for the round-trip counterexample. -/
def demoVocab : List Token := [padTok, clsTok, sepTok, maskTok, unkTok, ['_', 'a']]

/-- A vocabulary for the longest-match witness. -/
def demoVocab2 : List Token := [['_'], ['a'], ['_', 'a']]

/-- A state on which one round of training is the identity never reaches the
target size: the loop of `fit` runs forever. -/
theorem fitLoop_stalled (v : Nat) (s : TrainState) (hfix : fitRound s = s)
    (hlt : s.tokens.length < v) : ∀ n, fitLoop v n s = none := by
  intro n
  induction n with
  | zero => simp [fitLoop, hlt]
  | succ k ih =>
    simp only [fitLoop, if_pos hlt, hfix]
    exact ih

/-- C3: the claim demands that a round with zero accepted merges below the
target size abort training (TrainingStalledError); the source has no such
guard. On the corpus `a` with `vocab_size = 10`, after one round every word
is a single token, no bigram exists, and the vocabulary is stuck at 3
tokens, so the `while` loop never exits no matter how many rounds it is
allowed: the code loops forever instead of raising. -/
theorem c3_training_never_terminates :
    ∀ fuel, fit 10 fuel none none ['a'] = Except.ok none := by
  intro fuel
  have key : ∀ n, fitLoop 10 n (fitRound (initState [['a'], ['_']] ['a'])) = none :=
    fitLoop_stalled 10 _ (by decide) (by decide)
  cases fuel with
  | zero => rfl
  | succ k =>
    have h1 : fit 10 (k + 1) none none ['a'] =
        (match fitLoop 10 k (fitRound (initState [['a'], ['_']] ['a'])) with
         | none => Except.ok none
         | some s => Except.ok (some (finalizeTokens s.tokens))) := rfl
    rw [h1, key k]

/-- C4: the claim says applying a merge replaces only the two tokens standing
adjacent as whole elements and in particular never merges across a position
where the left token is only a suffix of the preceding element. The textual
space-joined replacement of `_merge_bigrams_in_word` does cross that
boundary: merging `(b, x)` into the word `[c, ab, x]` (where `b` and `x` are
not adjacent elements, so the claim requires no change) yields `[c, abx]`. -/
theorem c4_merge_crosses_boundary :
    mergeBigramsInWord [['c'], ['a', 'b'], ['x']] [(['b'], ['x'])] =
      [['c'], ['a', 'b', 'x']] ∧
    mergeBigramsInWord [['c'], ['a', 'b'], ['x']] [(['b'], ['x'])] ≠
      [['c'], ['a', 'b'], ['x']] := by
  exact ⟨rfl, by decide⟩

/-- C7: with a maximum given, `_get_symbols` raises AttributeError at line 94
(`nltk.FreqDist.most_common(max_symbols)` takes the integer as receiver and
evaluates `max_symbols.items()`); it never returns the most frequent
characters. -/
theorem c7_symbols_crash :
    getSymbols ['a', 'b'] (some 1) = Except.error PyErr.attributeError := rfl

/-- C10: whenever the trainer was constructed with a non-None `valid_symbols`
argument, `fit` raises NameError at line 33 before any training work: the
local `invalid_symbols` is only assigned in the automatic-derivation branch. -/
theorem c10_valid_symbols_name_error :
    ∀ (vocabSize fuel : Nat) (vs : List Token) (maxSymbols : Option Nat)
      (text : List Char),
      fit vocabSize fuel (some vs) maxSymbols text = Except.error PyErr.nameError := by
  intro _ _ _ _ _
  rfl

/-- C1 counterexample: on the corpus `<pad> z z z z` with `vocab_size = 12`,
training terminates after four rounds which merge `<`+`p`, `<p`+`a`,
`<pa`+`d` and `<pad`+`>`, so the learned vocabulary already contains the
literal token `<pad>`; finalization then skips prepending it and the first
five entries are NOT `<pad>, <cls>, <sep>, <mask>, <unk>`. -/
theorem c1_counterexample :
    fit 12 6 none none cexText = Except.ok (some cexResult) ∧
    cexResult.take 5 ≠ [padTok, clsTok, sepTok, maskTok, unkTok] := by
  exact ⟨by decide, by decide⟩

/-- C5 counterexample: every encoded word carries the `_` marker and decode
turns every marker into a blank, so the round trip prepends a blank. For the
one-word text `a` over a trained-shape vocabulary whose word `_a` segments
fully without `<unk>`, `decode (encode "a")` is `" a"`, not `"a"`. -/
theorem c5_counterexample :
    (encode demoVocab (token2ixFun demoVocab) ['a']).bind
        (fun idxs => decode demoVocab (idxs.map Int.ofNat)) =
      some [' ', 'a'] ∧
    segmentsFully demoVocab ['_', 'a'] ∧
    some [' ', 'a'] ≠ some ['a'] := by
  exact ⟨rfl, rfl, by decide⟩

/-- C9 counterexample: `decode` over the two-token vocabulary `[a, b]`
succeeds on the index `-1` (Python lists index from the end), although `-1`
is outside the range `0` to `len - 1`, so "raises if and only if some index
is outside 0..len-1" is false. -/
theorem c9_counterexample :
    decode [['a'], ['b']] [-1] = some ['b'] ∧
    ((-1 : Int) < 0 ∨ (2 : Int) ≤ -1) := by
  exact ⟨rfl, by decide⟩

/-- A bigram accepted later in a scan has no token among the already-seen
accumulator. -/
theorem scanOK_not_mem (seen : List Token) (bgs : List (Token × Token))
    (h : scanOK seen bgs) : ∀ b ∈ bgs, b.1 ∉ seen ∧ b.2 ∉ seen := by
  induction bgs generalizing seen with
  | nil => intro b hb; cases hb
  | cons c cs ih =>
    intro b hb
    obtain ⟨hc, hrest⟩ := h
    rcases List.mem_cons.mp hb with hb | hb
    · subst hb
      exact ⟨fun h1 => hc (Or.inl h1), fun h2 => hc (Or.inr h2)⟩
    · have hm := ih _ hrest b hb
      constructor
      · intro hmem
        exact hm.1 (by simp [hmem])
      · intro hmem
        exact hm.2 (by simp [hmem])

/-- A conflict-free scan yields pairwise token-disjoint merge rules. -/
theorem scanOK_pairwise (seen : List Token) (bgs : List (Token × Token))
    (h : scanOK seen bgs) : List.Pairwise disjointBigrams bgs := by
  induction bgs generalizing seen with
  | nil => exact List.Pairwise.nil
  | cons c cs ih =>
    obtain ⟨_, hrest⟩ := h
    refine List.Pairwise.cons ?_ (ih _ hrest)
    intro b hb
    have hmem := scanOK_not_mem _ _ hrest b hb
    have h1 : b.1 ≠ c.1 ∧ b.1 ≠ c.2 := by
      constructor <;> intro he <;> exact hmem.1 (by simp [he])
    have h2 : b.2 ≠ c.1 ∧ b.2 ≠ c.2 := by
      constructor <;> intro he <;> exact hmem.2 (by simp [he])
    exact ⟨h1.1.symm, h2.1.symm, h1.2.symm, h2.2.symm⟩

/-- Full characterization of the scan of `_get_independed_bigrams`: it
returns a front segment of the ranked list — every element of the segment
conflict-free against the tokens accepted before it — and the scan either
exhausted the list or stopped at a conflicting element; everything after the
first conflict is discarded. -/
theorem getIndependedAux_spec (l : List BigramMI) :
    ∀ seen, ∃ k, k ≤ l.length ∧
      (getIndependedAux seen l).1 = (l.take k).map (fun e => e.bigram) ∧
      (getIndependedAux seen l).2 =
        (l.take k).map (fun e => e.bigram.1 ++ e.bigram.2) ∧
      scanOK seen ((l.take k).map (fun e => e.bigram)) ∧
      (k = l.length ∨ ∃ e rest, l.drop k = e :: rest ∧
        conflicts e.bigram (seenAfter seen ((l.take k).map (fun e => e.bigram)))) := by
  induction l with
  | nil =>
    intro seen
    exact ⟨0, by simp [getIndependedAux, scanOK]⟩
  | cons e rest ih =>
    intro seen
    by_cases hc : e.bigram.1 ∉ seen ∧ e.bigram.2 ∉ seen
    · obtain ⟨k, hk, h1, h2, h3, h4⟩ := ih (seen ++ [e.bigram.1, e.bigram.2])
      refine ⟨k + 1, by simpa using hk, ?_, ?_, ?_, ?_⟩
      · simp only [getIndependedAux, if_pos hc, List.take_succ_cons, List.map_cons]
        rw [h1]
      · simp only [getIndependedAux, if_pos hc, List.take_succ_cons, List.map_cons]
        rw [h2]
      · simp only [List.take_succ_cons, List.map_cons, scanOK]
        exact ⟨fun h => h.elim hc.1 hc.2, h3⟩
      · rcases h4 with h4 | ⟨e', rest', hdrop, hconf⟩
        · exact Or.inl (by simpa using h4)
        · refine Or.inr ⟨e', rest', by simpa using hdrop, ?_⟩
          simpa [seenAfter] using hconf
    · refine ⟨0, by simp, ?_, ?_, ?_, ?_⟩
      · simp [getIndependedAux, if_neg hc]
      · simp [getIndependedAux, if_neg hc]
      · simp [scanOK]
      · refine Or.inr ⟨e, rest, by simp, ?_⟩
        simp only [List.take_zero, List.map_nil, seenAfter, List.foldl_nil]
        unfold conflicts
        push_neg at hc
        by_cases hin : e.bigram.1 ∈ seen
        · exact Or.inl hin
        · exact Or.inr (hc hin)

/-- C2: in each round, merge selection scans the score-sorted bigram list
from the top (the caller `fitRound` passes `sortDesc` output), accepts a
bigram only when neither of its two tokens occurs in any bigram accepted
earlier this round, stops the scan entirely at the first rejected bigram
(the accepted merges are exactly a front segment of the ranked list, and the
element right after that segment, when one exists, conflicts), and within
one round no token appears in more than one accepted merge (the accepted
bigrams are pairwise token-disjoint). -/
theorem c2_merge_selection (l : List BigramMI) :
    ∃ k, k ≤ l.length ∧
      (getIndependedBigrams l).1 = (l.take k).map (fun e => e.bigram) ∧
      scanOK [] ((l.take k).map (fun e => e.bigram)) ∧
      (k = l.length ∨ ∃ e rest, l.drop k = e :: rest ∧
        conflicts e.bigram (seenAfter [] ((l.take k).map (fun e => e.bigram)))) ∧
      List.Pairwise disjointBigrams ((l.take k).map (fun e => e.bigram)) := by
  obtain ⟨k, hk, h1, _, h3, h4⟩ := getIndependedAux_spec l []
  exact ⟨k, hk, h1, h3, h4, scanOK_pairwise _ _ h3⟩

/-- The loop measure of the window scan drops on a vocabulary hit. -/
theorem tok_measure_match (len s e : Nat) (hs : s < len) (hse : s < e)
    (he : e ≤ len) :
    (len - e) * (len + 1) + len < (len - s) * (len + 1) + e := by
  have h1 : len - e + 1 ≤ len - s := by omega
  have h2 : (len - e + 1) * (len + 1) ≤ (len - s) * (len + 1) :=
    Nat.mul_le_mul h1 le_rfl
  have h3 : (len - e + 1) * (len + 1) = (len - e) * (len + 1) + (len + 1) := by
    ring
  omega

/-- The canonical fuel of `tokenizeCore` strictly bounds the initial measure. -/
theorem tok_fuel_ok (len : Nat) :
    (len - 0) * (len + 1) + len < (len + 1) * (len + 1) := by
  have h : (len + 1) * (len + 1) = len * (len + 1) + (len + 1) := by ring
  have h2 : (len - 0) * (len + 1) = len * (len + 1) := by rw [Nat.sub_zero]
  omega

/-- Any two fuels above the measure give the same scan result. -/
theorem tokenizeAuxF_fuel_irrel (vocab : List Token) (word : List Char) :
    ∀ f1 f2 s e, e ≤ word.length →
      (word.length - s) * (word.length + 1) + e < f1 →
      (word.length - s) * (word.length + 1) + e < f2 →
      tokenizeAuxF vocab word f1 s e = tokenizeAuxF vocab word f2 s e := by
  intro f1
  induction f1 with
  | zero => intro f2 s e _ h1 _; omega
  | succ a ih =>
    intro f2 s e he h1 h2
    cases f2 with
    | zero => omega
    | succ b =>
      simp only [tokenizeAuxF]
      by_cases hcond : s < word.length ∧ s < e
      · rw [if_pos hcond, if_pos hcond]
        by_cases hmem : (word.drop s).take (e - s) ∈ vocab
        · rw [if_pos hmem, if_pos hmem]
          have hlt := tok_measure_match word.length s e hcond.1 hcond.2 he
          rw [ih b e word.length le_rfl (by omega) (by omega)]
        · rw [if_neg hmem, if_neg hmem]
          exact ih b s (e - 1) (by omega) (by omega) (by omega)
      · rw [if_neg hcond, if_neg hcond]

/-- Core invariants of the scan: the final `start` lies between the initial
one and the word's length, the emitted tokens concatenate to exactly the
consumed slice, and every emitted token is a vocabulary member. -/
theorem tokenizeAuxF_main (vocab : List Token) (word : List Char) :
    ∀ fuel s e, s ≤ word.length → e ≤ word.length →
      (word.length - s) * (word.length + 1) + e < fuel →
      s ≤ (tokenizeAuxF vocab word fuel s e).2 ∧
      (tokenizeAuxF vocab word fuel s e).2 ≤ word.length ∧
      ((tokenizeAuxF vocab word fuel s e).1).flatten =
        (word.drop s).take ((tokenizeAuxF vocab word fuel s e).2 - s) ∧
      ∀ t ∈ (tokenizeAuxF vocab word fuel s e).1, t ∈ vocab := by
  intro fuel
  induction fuel with
  | zero => intro s e _ _ h; omega
  | succ a ih =>
    intro s e hs he hm
    simp only [tokenizeAuxF]
    by_cases hcond : s < word.length ∧ s < e
    · rw [if_pos hcond]
      by_cases hmem : (word.drop s).take (e - s) ∈ vocab
      · rw [if_pos hmem]
        have hlt := tok_measure_match word.length s e hcond.1 hcond.2 he
        obtain ⟨ih1, ih2, ih3, ih4⟩ :=
          ih e word.length (by omega) le_rfl (by omega)
        dsimp only
        refine ⟨by omega, ih2, ?_, ?_⟩
        · simp only [List.flatten_cons]
          rw [ih3]
          have hd : word.drop e = (word.drop s).drop (e - s) := by
            rw [List.drop_drop]
            congr 1
            omega
          rw [hd]
          rw [show (tokenizeAuxF vocab word a e word.length).2 - s =
              (e - s) + ((tokenizeAuxF vocab word a e word.length).2 - e) from by
            omega]
          rw [List.take_add]
        · intro t ht
          rcases List.mem_cons.mp ht with h | h
          · subst h; exact hmem
          · exact ih4 t h
      · rw [if_neg hmem]
        exact ih s (e - 1) hs (by omega) (by omega)
    · rw [if_neg hcond]
      refine ⟨le_rfl, hs, by simp, by simp⟩

/-- When no window `[0, j)` with `j` above `K` matches the vocabulary, the
scan shrinks from `e` down to `K` without emitting anything, spending one
unit of fuel per step. -/
theorem tokenizeAuxF_scan_down (vocab : List Token) (word : List Char) (K : Nat)
    (hnomatch : ∀ j, K < j → j ≤ word.length → word.take j ∉ vocab)
    (hlen : 0 < word.length) :
    ∀ e fuel, K ≤ e → e ≤ word.length →
      (word.length - 0) * (word.length + 1) + e < fuel →
      tokenizeAuxF vocab word fuel 0 e =
        tokenizeAuxF vocab word (fuel - (e - K)) 0 K := by
  intro e
  induction e with
  | zero =>
    intro fuel hK _ _
    have h0 : K = 0 := by omega
    subst h0
    simp
  | succ e' ih =>
    intro fuel hK he hm
    by_cases hKe : K = e' + 1
    · rw [hKe]; simp
    · have hK' : K ≤ e' := by omega
      cases fuel with
      | zero => omega
      | succ f =>
        have hstep : tokenizeAuxF vocab word (f + 1) 0 (e' + 1) =
            tokenizeAuxF vocab word f 0 e' := by
          simp only [tokenizeAuxF]
          rw [if_pos ⟨hlen, Nat.succ_pos e'⟩]
          have hsl : (word.drop 0).take (e' + 1 - 0) = word.take (e' + 1) := by
            simp
          rw [hsl, if_neg (hnomatch (e' + 1) (by omega) he)]
          simp
        rw [hstep, ih f hK' (by omega) (by omega)]
        congr 1
        omega

/-- Scanning `word` from a start at or beyond `K` is the same as scanning
the word with its first `K` characters dropped, with every position shifted
by `K`. -/
theorem tokenizeAuxF_shift (vocab : List Token) (word : List Char) (K : Nat) :
    ∀ fuel s e, K ≤ s →
      (tokenizeAuxF vocab word fuel s e).1 =
        (tokenizeAuxF vocab (word.drop K) fuel (s - K) (e - K)).1 ∧
      (tokenizeAuxF vocab word fuel s e).2 =
        (tokenizeAuxF vocab (word.drop K) fuel (s - K) (e - K)).2 + K := by
  intro fuel
  induction fuel with
  | zero =>
    intro s e hK
    exact ⟨rfl, by simp only [tokenizeAuxF]; omega⟩
  | succ a ih =>
    intro s e hK
    have hlen : (word.drop K).length = word.length - K := by
      rw [List.length_drop]
    simp only [tokenizeAuxF]
    by_cases hcond : s < word.length ∧ s < e
    · have hcond' : s - K < (word.drop K).length ∧ s - K < e - K := by
        rw [hlen]; omega
      rw [if_pos hcond, if_pos hcond']
      have hslice : ((word.drop K).drop (s - K)).take ((e - K) - (s - K)) =
          (word.drop s).take (e - s) := by
        rw [List.drop_drop]
        rw [show K + (s - K) = s from by omega]
        rw [show (e - K) - (s - K) = e - s from by omega]
      rw [hslice]
      by_cases hmem : (word.drop s).take (e - s) ∈ vocab
      · rw [if_pos hmem, if_pos hmem]
        obtain ⟨ihA, ihB⟩ := ih e word.length (by omega)
        dsimp only
        rw [hlen]
        exact ⟨by rw [ihA], by rw [ihB]⟩
      · rw [if_neg hmem, if_neg hmem]
        have hrec := ih s (e - 1) hK
        rw [show (e - 1) - K = (e - K) - 1 from by omega] at hrec
        exact hrec
    · have hcond' : ¬(s - K < (word.drop K).length ∧ s - K < e - K) := by
        rw [hlen]; omega
      rw [if_neg hcond, if_neg hcond']
      exact ⟨rfl, by dsimp only; omega⟩

/-- C6: for every word and vocabulary, whenever some nonempty window from
the start matches, the first token the segmenter emits is the longest
vocabulary-member window `word[0:K]` — no strictly longer window matches —
and segmentation then continues on the rest of the word in exactly the same
way, so the same longest-match property holds at each subsequent position. -/
theorem c6_longest_match (vocab : List Token) (word : List Char) (k : Nat)
    (hk1 : 1 ≤ k) (hk2 : k ≤ word.length) (hmem : word.take k ∈ vocab) :
    tokenizeWord vocab word =
      word.take (Nat.findGreatest (fun j => word.take j ∈ vocab) word.length) ::
        tokenizeWord vocab
          (word.drop (Nat.findGreatest (fun j => word.take j ∈ vocab) word.length)) ∧
    ∀ j, Nat.findGreatest (fun j => word.take j ∈ vocab) word.length < j →
      j ≤ word.length → word.take j ∉ vocab := by
  set len := word.length with hlendef
  set K := Nat.findGreatest (fun j => word.take j ∈ vocab) len with hKdef
  have hKle : K ≤ len := by rw [hKdef]; exact Nat.findGreatest_le len
  have hK1 : 1 ≤ K := by
    rw [hKdef]
    have h2 : k ≤ Nat.findGreatest (fun j => word.take j ∈ vocab) len :=
      Nat.le_findGreatest hk2 hmem
    omega
  have hKmem : word.take K ∈ vocab :=
    Nat.findGreatest_of_ne_zero hKdef.symm (by omega)
  have hgr : ∀ j, K < j → j ≤ len → word.take j ∉ vocab := by
    intro j h1 h2
    rw [hKdef] at h1
    exact Nat.findGreatest_is_greatest h1 h2
  have hlen0 : 0 < len := by omega
  refine ⟨?_, hgr⟩
  have h1 : tokenizeAuxF vocab word ((len + 1) * (len + 1)) 0 len =
      tokenizeAuxF vocab word ((len + 1) * (len + 1) - (len - K)) 0 K :=
    tokenizeAuxF_scan_down vocab word K hgr hlen0 len ((len + 1) * (len + 1))
      hKle le_rfl (tok_fuel_ok len)
  have hF : (len + 1) * (len + 1) - (len - K) = len * (len + 1) + K + 1 := by
    have h : (len + 1) * (len + 1) = len * (len + 1) + (len + 1) := by ring
    omega
  have h2 : tokenizeAuxF vocab word (len * (len + 1) + K + 1) 0 K =
      (word.take K :: (tokenizeAuxF vocab word (len * (len + 1) + K) K len).1,
        (tokenizeAuxF vocab word (len * (len + 1) + K) K len).2) := by
    simp only [tokenizeAuxF]
    rw [if_pos ⟨hlen0, by omega⟩]
    have hsl : (word.drop 0).take (K - 0) = word.take K := by simp
    rw [hsl, if_pos hKmem]
  obtain ⟨hsA, hsB⟩ :=
    tokenizeAuxF_shift vocab word K (len * (len + 1) + K) K len le_rfl
  rw [Nat.sub_self] at hsA hsB
  have hlen' : (word.drop K).length = len - K := by
    rw [List.length_drop]
  have hfuel4 : tokenizeAuxF vocab (word.drop K) (len * (len + 1) + K) 0 (len - K) =
      tokenizeAuxF vocab (word.drop K) ((len - K + 1) * (len - K + 1)) 0 (len - K) := by
    apply tokenizeAuxF_fuel_irrel
    · rw [hlen']
    · rw [hlen']
      simp only [Nat.sub_zero]
      have hA1 : (len - K) * (len - K + 1) ≤ (len - 1) * len :=
        Nat.mul_le_mul (by omega) (by omega)
      have hA2 : (len - 1) * len ≤ len * len := Nat.mul_le_mul (by omega) le_rfl
      have hB : len * (len + 1) = len * len + len := by ring
      omega
    · rw [hlen']
      exact tok_fuel_ok (len - K)
  have hcore : tokenizeCore vocab word =
      (word.take K :: (tokenizeCore vocab (word.drop K)).1,
        (tokenizeCore vocab (word.drop K)).2 + K) := by
    show tokenizeAuxF vocab word ((len + 1) * (len + 1)) 0 len = _
    rw [h1, hF, h2, hsA, hsB, hfuel4]
    show _ = (word.take K ::
        (tokenizeAuxF vocab (word.drop K)
          (((word.drop K).length + 1) * ((word.drop K).length + 1)) 0
          ((word.drop K).length)).1,
      (tokenizeAuxF vocab (word.drop K)
          (((word.drop K).length + 1) * ((word.drop K).length + 1)) 0
          ((word.drop K).length)).2 + K)
    rw [hlen']
  have hc2le : (tokenizeCore vocab (word.drop K)).2 ≤ len - K := by
    have hm := tokenizeAuxF_main vocab (word.drop K)
      (((word.drop K).length + 1) * ((word.drop K).length + 1)) 0
      ((word.drop K).length) (by omega) le_rfl (tok_fuel_ok _)
    show (tokenizeAuxF vocab (word.drop K)
        (((word.drop K).length + 1) * ((word.drop K).length + 1)) 0
        ((word.drop K).length)).2 ≤ len - K
    rw [← hlen']
    exact hm.2.1
  show tokenizeWord vocab word = word.take K :: tokenizeWord vocab (word.drop K)
  unfold tokenizeWord
  rw [hcore]
  dsimp only
  rw [hlen']
  by_cases hu : (tokenizeCore vocab (word.drop K)).2 + K < len
  · rw [if_pos hu, if_pos (show (tokenizeCore vocab (word.drop K)).2 < len - K from
      by omega)]
    simp
  · rw [if_neg hu, if_neg (show ¬(tokenizeCore vocab (word.drop K)).2 < len - K from
      by omega)]

/-- Witness for C6 at the vocabulary `[_, a, _a]` and the word `_aa`: the
first emitted token is the two-character window `_a`, not the shorter
matching window `_`. -/
theorem c6_witness :
    tokenizeWord demoVocab2 ['_', 'a', 'a'] =
      (['_', 'a', 'a'] : List Char).take
          (Nat.findGreatest
            (fun j => (['_', 'a', 'a'] : List Char).take j ∈ demoVocab2)
            (['_', 'a', 'a'] : List Char).length) ::
        tokenizeWord demoVocab2
          ((['_', 'a', 'a'] : List Char).drop
            (Nat.findGreatest
              (fun j => (['_', 'a', 'a'] : List Char).take j ∈ demoVocab2)
              (['_', 'a', 'a'] : List Char).length)) ∧
    ∀ j, Nat.findGreatest
          (fun j => (['_', 'a', 'a'] : List Char).take j ∈ demoVocab2)
          (['_', 'a', 'a'] : List Char).length < j →
      j ≤ (['_', 'a', 'a'] : List Char).length →
      (['_', 'a', 'a'] : List Char).take j ∉ demoVocab2 :=
  c6_longest_match demoVocab2 ['_', 'a', 'a'] 2 (by decide) (by decide) (by decide)

/-- Every token the segmenter emits is a vocabulary member or `<unk>`. -/
theorem tokenizeWord_mem (vocab : List Token) (word : List Char) :
    ∀ t ∈ tokenizeWord vocab word, t ∈ vocab ∨ t = unkTok := by
  intro t ht
  have hm := tokenizeAuxF_main vocab word
    ((word.length + 1) * (word.length + 1)) 0 word.length (by omega) le_rfl
    (tok_fuel_ok _)
  unfold tokenizeWord at ht
  split at ht
  · rcases List.mem_append.mp ht with h | h
    · exact Or.inl (hm.2.2.2 t h)
    · exact Or.inr (by simpa using h)
  · exact Or.inl (hm.2.2.2 t ht)

/-- Appending to the index accumulator: a hit reports a position at or after
the accumulator's start, and the token list holds the token there. -/
theorem token2ixAux_get (t : Token) :
    ∀ (xs : List Token) (i j : Nat), token2ixAux t i xs = some j →
      i ≤ j ∧ listGet? xs (j - i) = some t := by
  intro xs
  induction xs with
  | nil => intro i j h; simp [token2ixAux] at h
  | cons x xs ih =>
    intro i j h
    simp only [token2ixAux] at h
    cases hrec : token2ixAux t (i + 1) xs with
    | some j' =>
      rw [hrec] at h
      injection h with h'
      subst h'
      obtain ⟨h1, h2⟩ := ih (i + 1) j' hrec
      refine ⟨by omega, ?_⟩
      rw [show j' - i = (j' - (i + 1)) + 1 from by omega]
      exact h2
    | none =>
      rw [hrec] at h
      by_cases hx : x = t
      · rw [if_pos hx] at h
        injection h with h'
        subst h'
        subst hx
        exact ⟨le_rfl, by simp [listGet?]⟩
      · rw [if_neg hx] at h
        cases h

/-- A token of the list has an index. -/
theorem token2ixAux_isSome (t : Token) :
    ∀ (xs : List Token) (i : Nat), t ∈ xs → (token2ixAux t i xs).isSome := by
  intro xs
  induction xs with
  | nil => intro i h; cases h
  | cons x xs ih =>
    intro i h
    simp only [token2ixAux]
    cases hrec : token2ixAux t (i + 1) xs with
    | some j => simp
    | none =>
      rcases List.mem_cons.mp h with h | h
      · subst h; simp
      · have := ih (i + 1) h
        rw [hrec] at this
        cases this

/-- The index map built at line 81 inverts the token list. -/
theorem token2ixFun_get (vocab : List Token) (t : Token) (j : Nat)
    (h : token2ixFun vocab t = some j) : listGet? vocab j = some t := by
  obtain ⟨_, h2⟩ := token2ixAux_get t vocab 0 j h
  simpa using h2

theorem token2ixFun_isSome (vocab : List Token) (t : Token) (ht : t ∈ vocab) :
    (token2ixFun vocab t).isSome :=
  token2ixAux_isSome t vocab 0 ht

/-- The index comprehension of line 193 succeeds when every token has an
index. -/
theorem lookupAll_total (f : Token → Option Nat) :
    ∀ ts, (∀ t ∈ ts, (f t).isSome) → ∃ out, lookupAll f ts = some out := by
  intro ts
  induction ts with
  | nil => exact fun _ => ⟨[], rfl⟩
  | cons t ts ih =>
    intro h
    obtain ⟨i, hi⟩ := Option.isSome_iff_exists.mp (h t (by simp))
    obtain ⟨is, his⟩ := ih (fun t ht => h t (by simp [ht]))
    exact ⟨i :: is, by simp [lookupAll, hi, his]⟩

/-- C8: when the scan window shrinks to empty with no vocabulary match
(`start` stops short of the word's end), the segmenter emits the tokens
matched so far — which cover exactly the consumed slice `word[0:start]`,
the remaining characters being dropped — plus a single `<unk>`; and
`encode` over a vocabulary containing `<unk>` (every trained vocabulary
does) never raises: it returns a list of indices for every input text. -/
theorem c8_unknown_fallback :
    (∀ (vocab : List Token) (word : List Char),
      (tokenizeCore vocab word).2 < word.length →
      tokenizeWord vocab word = (tokenizeCore vocab word).1 ++ [unkTok] ∧
      ((tokenizeCore vocab word).1).flatten =
        word.take (tokenizeCore vocab word).2) ∧
    (∀ (vocab : List Token) (text : List Char), unkTok ∈ vocab →
      ∃ out, encode vocab (token2ixFun vocab) text = some out) := by
  constructor
  · intro vocab word h
    refine ⟨by rw [tokenizeWord, if_pos h], ?_⟩
    have hm := tokenizeAuxF_main vocab word
      ((word.length + 1) * (word.length + 1)) 0 word.length (by omega) le_rfl
      (tok_fuel_ok _)
    have h3 := hm.2.2.1
    simpa using h3
  · intro vocab text hunk
    apply lookupAll_total
    intro t ht
    rw [List.mem_flatten] at ht
    obtain ⟨l, hl, htl⟩ := ht
    rw [List.mem_map] at hl
    obtain ⟨w, _, hw⟩ := hl
    subst hw
    rcases tokenizeWord_mem vocab w t htl with h | h
    · exact token2ixFun_isSome vocab t h
    · subst h
      exact token2ixFun_isSome vocab unkTok hunk

/-- Witness for C8: over the empty vocabulary the word `q` yields the single
`<unk>` fallback, and `encode` over a vocabulary holding `<unk>` returns
indices for the text `q q`. -/
theorem c8_witness :
    (tokenizeWord ([] : List Token) ['q'] =
        (tokenizeCore ([] : List Token) ['q']).1 ++ [unkTok] ∧
      ((tokenizeCore ([] : List Token) ['q']).1).flatten =
        (['q'] : List Char).take (tokenizeCore ([] : List Token) ['q']).2) ∧
    ∃ out, encode [unkTok] (token2ixFun [unkTok]) ['q', ' ', 'q'] = some out :=
  ⟨c8_unknown_fallback.1 [] ['q'] (by decide),
    c8_unknown_fallback.2 [unkTok] ['q', ' ', 'q'] (by decide)⟩

theorem length_le_ite (c : Prop) [Decidable c] (x : Token) (l : List Token) :
    l.length ≤ (if c then l else x :: l).length := by
  split
  · exact le_rfl
  · simp

/-- Finalization only prepends, so it never shrinks the list. -/
theorem finalizeTokens_length (tokens : List Token) :
    tokens.length ≤ (finalizeTokens tokens).length := by
  simp only [finalizeTokens]
  repeat' split
  all_goals try simp only [List.length_cons]
  all_goals omega

/-- When the training loop exits normally, the vocabulary reached the
target size (lines 40-41 and 65). -/
theorem fitLoop_ge (v : Nat) :
    ∀ fuel s s', fitLoop v fuel s = some s' → v ≤ s'.tokens.length := by
  intro fuel
  induction fuel with
  | zero =>
    intro s s' h
    simp only [fitLoop] at h
    split at h
    · cases h
    · injection h with h'
      subst h'
      omega
  | succ f ih =>
    intro s s' h
    simp only [fitLoop] at h
    split at h
    · exact ih _ _ h
    · injection h with h'
      subst h'
      omega

/-- C1 amended: whenever `fit` terminates, the returned list has length at
least `vocab_size`; finalization prepends each of the five reserved tokens
only when absent, in insertion order unk, mask, sep, cls, pad, so whenever
none of the five is already among the learned tokens the first five entries
are `<pad>, <cls>, <sep>, <mask>, <unk>` — but a learned token can collide
with a reserved one (see the counterexample), and then the prefix differs. -/
theorem c1_amended (vocabSize fuel : Nat) (text : List Char)
    (result : List Token)
    (hrun : fit vocabSize fuel none none text = Except.ok (some result)) :
    vocabSize ≤ result.length ∧
    ∀ tokens : List Token, padTok ∉ tokens → clsTok ∉ tokens →
      sepTok ∉ tokens → maskTok ∉ tokens → unkTok ∉ tokens →
      (finalizeTokens tokens).take 5 =
        [padTok, clsTok, sepTok, maskTok, unkTok] := by
  constructor
  · simp only [fit, getSymbols] at hrun
    cases hloop : fitLoop vocabSize fuel
        (initState (if ['_'] ∈ (dedupFirst text).map (fun c => [c]) then
            (dedupFirst text).map (fun c => [c])
          else (dedupFirst text).map (fun c => [c]) ++ [['_']]) text) with
    | none => rw [hloop] at hrun; cases hrun
    | some s =>
      rw [hloop] at hrun
      injection hrun with h'
      injection h' with h''
      subst h''
      exact le_trans (fitLoop_ge vocabSize fuel _ s hloop)
        (finalizeTokens_length s.tokens)
  · intro tokens h1 h2 h3 h4 h5
    have hmask : maskTok ∉ unkTok :: tokens := by
      intro hmem
      rcases List.mem_cons.mp hmem with h | h
      · exact absurd h (by decide)
      · exact h4 h
    have hsep : sepTok ∉ maskTok :: unkTok :: tokens := by
      intro hmem
      rcases List.mem_cons.mp hmem with h | h
      · exact absurd h (by decide)
      · rcases List.mem_cons.mp h with h | h
        · exact absurd h (by decide)
        · exact h3 h
    have hcls : clsTok ∉ sepTok :: maskTok :: unkTok :: tokens := by
      intro hmem
      rcases List.mem_cons.mp hmem with h | h
      · exact absurd h (by decide)
      · rcases List.mem_cons.mp h with h | h
        · exact absurd h (by decide)
        · rcases List.mem_cons.mp h with h | h
          · exact absurd h (by decide)
          · exact h2 h
    have hpad : padTok ∉ clsTok :: sepTok :: maskTok :: unkTok :: tokens := by
      intro hmem
      rcases List.mem_cons.mp hmem with h | h
      · exact absurd h (by decide)
      · rcases List.mem_cons.mp h with h | h
        · exact absurd h (by decide)
        · rcases List.mem_cons.mp h with h | h
          · exact absurd h (by decide)
          · rcases List.mem_cons.mp h with h | h
            · exact absurd h (by decide)
            · exact h1 h
    show (let t1 := if unkTok ∈ tokens then tokens else unkTok :: tokens
      let t2 := if maskTok ∈ t1 then t1 else maskTok :: t1
      let t3 := if sepTok ∈ t2 then t2 else sepTok :: t2
      let t4 := if clsTok ∈ t3 then t3 else clsTok :: t3
      if padTok ∈ t4 then t4 else padTok :: t4).take 5 =
        [padTok, clsTok, sepTok, maskTok, unkTok]
    simp only [if_neg h5, if_neg hmask, if_neg hsep, if_neg hcls, if_neg hpad]
    rfl

/-- Witness for C1 amended: `fit` on corpus `ab` with target 0 terminates at
once and finalization yields the reserved prefix. -/
theorem c1_amended_witness :
    (0 : Nat) ≤ ([padTok, clsTok, sepTok, maskTok, unkTok,
        ['a'], ['b'], ['_']] : List Token).length ∧
    ∀ tokens : List Token, padTok ∉ tokens → clsTok ∉ tokens →
      sepTok ∉ tokens → maskTok ∉ tokens → unkTok ∉ tokens →
      (finalizeTokens tokens).take 5 =
        [padTok, clsTok, sepTok, maskTok, unkTok] :=
  c1_amended 0 1 ['a', 'b']
    [padTok, clsTok, sepTok, maskTok, unkTok, ['a'], ['b'], ['_']] (by decide)

theorem takeWhile_append_stop (p : Char → Bool) :
    ∀ (w r : List Char), (∀ c ∈ w, p c = true) →
      (r = [] ∨ ∃ c cs, r = c :: cs ∧ p c = false) →
      (w ++ r).takeWhile p = w := by
  intro w
  induction w with
  | nil =>
    intro r _ hr
    rcases hr with rfl | ⟨c, cs, rfl, hc⟩
    · rfl
    · simp [List.takeWhile_cons, hc]
  | cons a as ih =>
    intro r hw hr
    simp only [List.cons_append, List.takeWhile_cons, hw a (by simp), if_true]
    rw [ih r (fun c hc => hw c (by simp [hc])) hr]

theorem dropWhile_append_stop (p : Char → Bool) :
    ∀ (w r : List Char), (∀ c ∈ w, p c = true) →
      (r = [] ∨ ∃ c cs, r = c :: cs ∧ p c = false) →
      (w ++ r).dropWhile p = r := by
  intro w
  induction w with
  | nil =>
    intro r _ hr
    rcases hr with rfl | ⟨c, cs, rfl, hc⟩
    · rfl
    · simp [List.dropWhile_cons, hc]
  | cons a as ih =>
    intro r hw hr
    simp only [List.cons_append, List.dropWhile_cons, hw a (by simp), if_true]
    exact ih r (fun c hc => hw c (by simp [hc])) hr

/-- `str.split()` inverts joining nonempty whitespace-free words with single
blanks. -/
theorem pySplitF_joinWords :
    ∀ (ws : List (List Char)),
      (∀ w ∈ ws, w ≠ [] ∧ ∀ c ∈ w, isWS c = false) →
      ∀ fuel, (joinWords ws).length < fuel →
      pySplitF fuel (joinWords ws) = ws := by
  intro ws
  induction ws with
  | nil =>
    intro _ fuel hf
    cases fuel with
    | zero => omega
    | succ f => rfl
  | cons w ws ih =>
    intro hws fuel hf
    obtain ⟨hwne, hwc⟩ := hws w (by simp)
    cases ws with
    | nil =>
      cases fuel with
      | zero => omega
      | succ f =>
        cases w with
        | nil => exact absurd rfl hwne
        | cons c cs =>
          have hc : isWS c = false := hwc c (by simp)
          have hflen : (c :: cs : List Char).length < f + 1 := hf
          have htw := takeWhile_append_stop (fun d => !isWS d) (c :: cs) []
            (fun d hd => by simp [hwc d hd]) (Or.inl rfl)
          have hdw := dropWhile_append_stop (fun d => !isWS d) (c :: cs) []
            (fun d hd => by simp [hwc d hd]) (Or.inl rfl)
          rw [List.append_nil] at htw hdw
          show pySplitF (f + 1) (c :: cs) = [c :: cs]
          simp only [pySplitF]
          rw [if_neg (by simp [hc]), htw, hdw]
          cases f with
          | zero => simp only [List.length_cons] at hflen; omega
          | succ g => rfl
    | cons w2 ws' =>
      cases fuel with
      | zero => omega
      | succ f =>
        cases w with
        | nil => exact absurd rfl hwne
        | cons c cs =>
          have hc : isWS c = false := hwc c (by simp)
          have hflen : ((c :: cs) ++ ' ' :: joinWords (w2 :: ws')).length < f + 1 :=
            hf
          rw [List.length_append] at hflen
          have htw := takeWhile_append_stop (fun d => !isWS d) (c :: cs)
            (' ' :: joinWords (w2 :: ws'))
            (fun d hd => by simp [hwc d hd])
            (Or.inr ⟨' ', joinWords (w2 :: ws'), rfl, by decide⟩)
          have hdw := dropWhile_append_stop (fun d => !isWS d) (c :: cs)
            (' ' :: joinWords (w2 :: ws'))
            (fun d hd => by simp [hwc d hd])
            (Or.inr ⟨' ', joinWords (w2 :: ws'), rfl, by decide⟩)
          show pySplitF (f + 1) ((c :: cs) ++ ' ' :: joinWords (w2 :: ws')) =
            (c :: cs) :: w2 :: ws'
          rw [List.cons_append]
          simp only [pySplitF]
          rw [if_neg (by simp [hc])]
          rw [← List.cons_append, htw, hdw]
          cases f with
          | zero => simp only [List.length_cons] at hflen; omega
          | succ g =>
            show (c :: cs) :: pySplitF (g + 1) (' ' :: joinWords (w2 :: ws')) = _
            simp only [pySplitF]
            rw [if_pos (by decide)]
            rw [ih (fun u hu => hws u (by simp [hu])) g (by
              simp only [List.length_cons] at hflen
              omega)]

/-- `str.replace` with the one-character pattern `_` and replacement blank is
the character map. -/
theorem strReplaceF_underscore :
    ∀ (fuel : Nat) (s : List Char), s.length ≤ fuel →
      strReplaceF ['_'] [' '] fuel s =
        s.map (fun c => if c = '_' then ' ' else c) := by
  intro fuel
  induction fuel with
  | zero =>
    intro s h
    cases s with
    | nil => rfl
    | cons c cs => simp at h
  | succ f ih =>
    intro s h
    cases s with
    | nil => rfl
    | cons c cs =>
      simp only [strReplaceF, List.map_cons]
      by_cases hc : c = '_'
      · subst hc
        rw [if_pos ⟨by simp, by simp [List.isPrefixOf]⟩]
        have hdrop : (('_' :: cs).drop (['_'] : List Char).length) = cs := rfl
        rw [hdrop]
        rw [ih cs (by simp at h; omega)]
        simp
      · rw [if_neg (by
          intro hcontra
          have h2 := hcontra.2
          simp only [List.isPrefixOf, Bool.and_true, beq_iff_eq] at h2
          exact hc h2.symm)]
        rw [ih cs (by simp at h; omega)]
        simp [hc]

theorem strReplace_underscore (s : List Char) :
    strReplace ['_'] [' '] s = s.map (fun c => if c = '_' then ' ' else c) :=
  strReplaceF_underscore s.length s le_rfl

/-- A fully segmenting word: no `<unk>` is appended, the emitted tokens
concatenate back to the word, and all of them are vocabulary members. -/
theorem tokenizeWord_full (vocab : List Token) (word : List Char)
    (h : segmentsFully vocab word) :
    tokenizeWord vocab word = (tokenizeCore vocab word).1 ∧
    ((tokenizeCore vocab word).1).flatten = word ∧
    ∀ t ∈ (tokenizeCore vocab word).1, t ∈ vocab := by
  have hm := tokenizeAuxF_main vocab word
    ((word.length + 1) * (word.length + 1)) 0 word.length (by omega) le_rfl
    (tok_fuel_ok _)
  unfold segmentsFully at h
  refine ⟨by rw [tokenizeWord, if_neg (by omega)], ?_, hm.2.2.2⟩
  show ((tokenizeAuxF vocab word ((word.length + 1) * (word.length + 1)) 0
      word.length).1).flatten = word
  rw [hm.2.2.1]
  have h' : (tokenizeAuxF vocab word ((word.length + 1) * (word.length + 1)) 0
      word.length).2 = word.length := h
  rw [h']
  simp

theorem pyListGet_natCast {α : Type} (l : List α) (n : Nat) :
    pyListGet l (Int.ofNat n) = listGet? l n := by
  unfold pyListGet
  rw [if_pos (show (0 : Int) ≤ Int.ofNat n from Int.natCast_nonneg n)]
  rfl

/-- Decoding the indices `encode` produced recovers the same token list. -/
theorem lookupAll_fetch (vocab : List Token) :
    ∀ ts out, lookupAll (token2ixFun vocab) ts = some out →
      fetchAll vocab (out.map Int.ofNat) = some ts := by
  intro ts
  induction ts with
  | nil =>
    intro out h
    simp only [lookupAll] at h
    injection h with h'
    subst h'
    rfl
  | cons t ts ih =>
    intro out h
    simp only [lookupAll] at h
    cases hi : token2ixFun vocab t with
    | none => rw [hi] at h; cases h
    | some i =>
      rw [hi] at h
      cases hrest : lookupAll (token2ixFun vocab) ts with
      | none => rw [hrest] at h; cases h
      | some is =>
        rw [hrest] at h
        injection h with h'
        subst h'
        simp only [List.map_cons, fetchAll]
        rw [pyListGet_natCast, token2ixFun_get vocab t i hi, ih is hrest]

theorem flatten_flatten_tokens (g : List Char → List Token) :
    ∀ ws : List (List Char),
      ((ws.map g).flatten).flatten =
        (ws.map (fun w => (g w).flatten)).flatten := by
  intro ws
  induction ws with
  | nil => rfl
  | cons w ws ih => simp [ih]

theorem map_sub_marker_word (w : List Char) (h : ∀ c ∈ w, c ≠ '_') :
    w.map (fun c => if c = '_' then ' ' else c) = w := by
  induction w with
  | nil => rfl
  | cons c cs ih =>
    simp only [List.map_cons, if_neg (h c (by simp))]
    rw [ih (fun c hc => h c (by simp [hc]))]

/-- Replacing markers by blanks in the concatenated marker-prefixed words
yields a blank followed by the blank-joined words. -/
theorem map_sub_markers (ws : List (List Char))
    (hw : ∀ w ∈ ws, ∀ c ∈ w, c ≠ '_') (h : ws ≠ []) :
    ((ws.map (fun w => '_' :: w)).flatten).map
        (fun c => if c = '_' then ' ' else c) =
      ' ' :: joinWords ws := by
  induction ws with
  | nil => exact absurd rfl h
  | cons w ws ih =>
    cases ws with
    | nil =>
      show ((('_' :: w) ++ []).map _) = ' ' :: joinWords [w]
      rw [List.append_nil]
      simp only [List.map_cons, if_pos rfl]
      rw [map_sub_marker_word w (hw w (by simp))]
      rfl
    | cons w2 ws' =>
      have hih := ih (fun u hu c hc => hw u (by simp [hu]) c hc) (by simp)
      show ((('_' :: w) ++ (((w2 :: ws').map (fun u => '_' :: u)).flatten)).map
          (fun c => if c = '_' then ' ' else c)) =
        ' ' :: joinWords (w :: w2 :: ws')
      rw [List.map_append]
      rw [hih]
      show (' ' :: w.map (fun c => if c = '_' then ' ' else c)) ++
          ' ' :: joinWords (w2 :: ws') = ' ' :: joinWords (w :: w2 :: ws')
      rw [map_sub_marker_word w (hw w (by simp))]
      rfl

/-- C5 amended: for a nonempty text of single-blank-separated, nonempty,
whitespace-free and marker-free words each of which segments fully without
the `<unk>` fallback, `decode (encode text)` succeeds and returns the text
with one blank prepended — every word carries the `_` marker and decode
turns each marker into a blank, so the round trip is `' ' + text`, not
`text`. -/
theorem c5_amended (vocab : List Token) (ws : List (List Char))
    (hne : ws ≠ [])
    (hwords : ∀ w ∈ ws, w ≠ [] ∧ ∀ c ∈ w, isWS c = false ∧ c ≠ '_')
    (hseg : ∀ w ∈ ws, segmentsFully vocab ('_' :: w)) :
    ∃ idxs, encode vocab (token2ixFun vocab) (joinWords ws) = some idxs ∧
      decode vocab (idxs.map Int.ofNat) =
        some (' ' :: joinWords ws) := by
  have hsplit : pySplit (joinWords ws) = ws := by
    unfold pySplit
    exact pySplitF_joinWords ws
      (fun w hw => ⟨(hwords w hw).1, fun c hc => ((hwords w hw).2 c hc).1⟩)
      _ (by omega)
  have htotal : ∀ t ∈ ((ws.map (fun w => '_' :: w)).map
      (tokenizeWord vocab)).flatten, (token2ixFun vocab t).isSome := by
    intro t ht
    rw [List.mem_flatten] at ht
    obtain ⟨l, hl, htl⟩ := ht
    rw [List.mem_map] at hl
    obtain ⟨mw, hmw, hwl⟩ := hl
    rw [List.mem_map] at hmw
    obtain ⟨w, hwmem, hmm⟩ := hmw
    subst hmm
    subst hwl
    have hfull := tokenizeWord_full vocab ('_' :: w) (hseg w hwmem)
    rw [hfull.1] at htl
    exact token2ixFun_isSome vocab t (hfull.2.2 t htl)
  obtain ⟨idxs, hidxs⟩ := lookupAll_total (token2ixFun vocab) _ htotal
  have hencode : encode vocab (token2ixFun vocab) (joinWords ws) = some idxs := by
    unfold encode
    rw [hsplit]
    exact hidxs
  refine ⟨idxs, hencode, ?_⟩
  have hfetch := lookupAll_fetch vocab _ idxs hidxs
  unfold decode
  rw [hfetch]
  have hmapflat : (ws.map (fun w => '_' :: w)).map
      (fun w' => (tokenizeWord vocab w').flatten) =
      ws.map (fun w => '_' :: w) := by
    have hper : ∀ w' ∈ ws.map (fun w => '_' :: w),
        (tokenizeWord vocab w').flatten = w' := by
      intro w' hw'
      rw [List.mem_map] at hw'
      obtain ⟨w, hwmem, rfl⟩ := hw'
      have hfull := tokenizeWord_full vocab ('_' :: w) (hseg w hwmem)
      rw [hfull.1]
      exact hfull.2.1
    have h1 : (ws.map (fun w => '_' :: w)).map
        (fun w' => (tokenizeWord vocab w').flatten) =
        (ws.map (fun w => '_' :: w)).map id := List.map_congr_left hper
    rw [h1, List.map_id]
  have hjoin : ((((ws.map (fun w => '_' :: w)).map
      (tokenizeWord vocab)).flatten).flatten : List Char) =
      (ws.map (fun w => '_' :: w)).flatten := by
    rw [flatten_flatten_tokens, hmapflat]
  show some (strReplace ['_'] [' ']
      ((((ws.map (fun w => '_' :: w)).map (tokenizeWord vocab)).flatten).flatten)) =
    some (' ' :: joinWords ws)
  rw [hjoin, strReplace_underscore]
  rw [map_sub_markers ws (fun w hwm c hc => ((hwords w hwm).2 c hc).2) hne]

/-- Witness for C5 amended at the vocabulary `demoVocab` and the one-word
text `a`. -/
theorem c5_amended_witness :
    ∃ idxs, encode demoVocab (token2ixFun demoVocab) (joinWords [['a']]) =
        some idxs ∧
      decode demoVocab (idxs.map Int.ofNat) =
        some (' ' :: joinWords [['a']]) :=
  c5_amended demoVocab [['a']] (by decide) (by decide) (by decide)

theorem listGet?_eq_none {α : Type} :
    ∀ (l : List α) (n : Nat), listGet? l n = none ↔ l.length ≤ n := by
  intro l
  induction l with
  | nil => intro n; simp [listGet?]
  | cons x xs ih =>
    intro n
    cases n with
    | zero => simp [listGet?]
    | succ m =>
      simp only [listGet?, List.length_cons]
      rw [ih m]
      omega

theorem pyListGet_eq_none {α : Type} (l : List α) (i : Int) :
    pyListGet l i = none ↔ i < -(l.length : Int) ∨ (l.length : Int) ≤ i := by
  unfold pyListGet
  by_cases h0 : 0 ≤ i
  · rw [if_pos h0, listGet?_eq_none]
    omega
  · rw [if_neg h0]
    by_cases h1 : 0 ≤ i + l.length
    · rw [if_pos h1, listGet?_eq_none]
      omega
    · rw [if_neg h1]
      constructor
      · intro _
        omega
      · intro _
        rfl

theorem fetchAll_eq_none (l : List Token) :
    ∀ seq, fetchAll l seq = none ↔
      ∃ i ∈ seq, i < -(l.length : Int) ∨ (l.length : Int) ≤ i := by
  intro seq
  induction seq with
  | nil => simp [fetchAll]
  | cons i is ih =>
    constructor
    · intro h
      simp only [fetchAll] at h
      cases hi : pyListGet l i with
      | none =>
        exact ⟨i, by simp, (pyListGet_eq_none l i).mp hi⟩
      | some t =>
        rw [hi] at h
        cases hrest : fetchAll l is with
        | none =>
          obtain ⟨j, hj, hjr⟩ := ih.mp hrest
          exact ⟨j, by simp [hj], hjr⟩
        | some ts =>
          rw [hrest] at h
          cases h
    · intro hex
      obtain ⟨j, hj, hjr⟩ := hex
      simp only [fetchAll]
      rcases List.mem_cons.mp hj with h | hj2
      · subst h
        rw [(pyListGet_eq_none l j).mpr hjr]
      · cases hi : pyListGet l i with
        | none => rfl
        | some t =>
          rw [ih.mpr ⟨j, hj2, hjr⟩]

/-- C9 amended: `decode` raises (IndexError) if and only if some index lies
outside the Python-indexable range `-len` to `len - 1` — negative indices
down to `-len` address the list from its end and succeed; for an in-range
sequence it returns the concatenation of the looked-up token strings with
every `_` replaced by a blank. -/
theorem c9_amended (l : List Token) (seq : List Int) :
    (decode l seq = none ↔
      ∃ i ∈ seq, i < -(l.length : Int) ∨ (l.length : Int) ≤ i) ∧
    ∀ out, decode l seq = some out →
      ∃ toks, fetchAll l seq = some toks ∧
        out = strReplace ['_'] [' '] toks.flatten := by
  constructor
  · unfold decode
    cases hf : fetchAll l seq with
    | none =>
      constructor
      · intro _
        exact (fetchAll_eq_none l seq).mp hf
      · intro _
        rfl
    | some ts =>
      constructor
      · intro hcontra
        simp at hcontra
      · intro hex
        rw [(fetchAll_eq_none l seq).mpr hex] at hf
        cases hf
  · intro out h
    unfold decode at h
    cases hf : fetchAll l seq with
    | none =>
      rw [hf] at h
      simp at h
    | some toks =>
      rw [hf] at h
      refine ⟨toks, rfl, ?_⟩
      simp only [Option.map] at h
      injection h with h'
      exact h'.symm

end WordPiece
